import Mathlib

/-!
Verification of the core helper algorithms of the repository
(`src/Helpers.py`): the sparse column profiler
`sparse_column_value_counts` and the rank-distance join `fuzzy_join`.

The embedding is shallow: Python dicts become association lists,
pandas data frames become a `Table` structure (a column-name list plus
rows of cells), raised exceptions become `Except.error`, and the
floating-point divisions of the profiler are modelled exactly over `ℚ`.
The insertion order of Python dict keys is not tracked beyond what the
claims observe (all claims are order-insensitive or use singleton keys).
-/

namespace UrzaHelpers

/-- A sparse matrix in CSC-like form: the row count plus, for each column,
the list of explicitly stored entries (`csc_matrix.data[start:end]`) in
storage order.  Row indices are not tracked because
`sparse_column_value_counts` never reads `indices`, only `indptr` spans
and `data`. -/
structure SparseMatrix where
  n_rows : ℕ
  cols : List (List ℤ)
deriving DecidableEq

/-- Well-formed sparse input: no column stores more entries than there are
rows (true of every actual scipy CSC matrix, whose row indices are distinct
and below `n_rows`). -/
def SparseMatrix.Wf (m : SparseMatrix) : Prop :=
  ∀ c ∈ m.cols, c.length ≤ m.n_rows

instance (m : SparseMatrix) : Decidable m.Wf := by
  unfold SparseMatrix.Wf; infer_instance

/-- Key set of the per-column Python `Counter` after the zero-bucket step
(Helpers.py lines 90-96): the distinct stored values, plus the key `0`
appended when `zeros_count > 0` put it there and `0` was not already a
stored value. -/
def columnKeys (n_rows : ℕ) (data : List ℤ) : List ℤ :=
  if 0 < (n_rows : ℤ) - data.length ∧ 0 ∉ data then data.dedup ++ [0]
  else data.dedup

/-- Final value of the per-column counter.  Line 96 of Helpers.py executes
`counter[0] = zeros_count`: an assignment, so when `zeros_count > 0` the
bucket for `0` holds exactly `n_rows - len(data)`, discarding any
explicitly stored zeros; every other key holds its multiplicity in the
stored data. -/
def columnCounter (n_rows : ℕ) (data : List ℤ) (v : ℤ) : ℕ :=
  if 0 < (n_rows : ℤ) - data.length ∧ v = 0 then n_rows - data.length
  else data.count v

/-- One column's profile (Helpers.py lines 83-103).  With `normalize=True`
the comprehension `{k: v / total for k, v in counter.items()}` divides each
bucket by `n_rows`; Python raises `ZeroDivisionError` exactly when the
counter is non-empty and `n_rows = 0` (the empty counter performs no
division). -/
def columnProfile (n_rows : ℕ) (normalize : Bool) (data : List ℤ) :
    Except String (List (ℤ × ℚ)) :=
  let keys := columnKeys n_rows data
  if normalize then
    if n_rows = 0 ∧ keys ≠ [] then Except.error "ZeroDivisionError"
    else Except.ok (keys.map fun k =>
      (k, (columnCounter n_rows data k : ℚ) / (n_rows : ℚ)))
  else Except.ok (keys.map fun k => (k, (columnCounter n_rows data k : ℚ)))

/-- The per-column loop of Helpers.py lines 83-103; an exception raised at
some column aborts the whole call. -/
def profileCols (n_rows : ℕ) (normalize : Bool) :
    List (List ℤ) → Except String (List (List (ℤ × ℚ)))
  | [] => Except.ok []
  | c :: cs =>
    match columnProfile n_rows normalize c, profileCols n_rows normalize cs with
    | Except.ok p, Except.ok ps => Except.ok (p :: ps)
    | Except.error e, _ => Except.error e
    | Except.ok _, Except.error e => Except.error e

/-- `sparse_column_value_counts(sparse_matrix, normalize)`
(Helpers.py lines 57-105). -/
def sparse_column_value_counts (m : SparseMatrix) (normalize : Bool) :
    Except String (List (List (ℤ × ℚ))) :=
  profileCols m.n_rows normalize m.cols

/-- The sum of all bucket values of one column profile. -/
def profileSum (p : List (ℤ × ℚ)) : ℚ :=
  (p.map Prod.snd).sum

/-- A cell of a pandas data frame: the join key is a string, ranks are
numeric.  Other payload columns carry either kind. -/
inductive Val where
  | str (s : String)
  | num (n : ℤ)
deriving DecidableEq

/-- One output record: a Python dict / data-frame row as an association
list from column name to cell. -/
abbrev Rec := List (String × Val)

/-- A pandas data frame: ordered column names and rows of cells (a
well-formed frame has one cell per column, see `Table.Wf`). -/
structure Table where
  cols : List String
  rows : List (List Val)
deriving DecidableEq

/-- Every row has exactly one cell per column. -/
def Table.Wf (t : Table) : Prop :=
  ∀ r ∈ t.rows, r.length = t.cols.length

instance (t : Table) : Decidable t.Wf := by
  unfold Table.Wf; infer_instance

/-- `row[c]`: the cell of `row` under column `c` of the frame's schema. -/
def getCell (cols : List String) (c : String) (row : List Val) : Option Val :=
  (cols.indexOf? c).bind row.get?

/-- `pd.merge` suffix rule with `suffixes=('', '_standings')`: a non-key
column of `df2` whose name clashes with a `df1` column is renamed; `df1`
columns keep their names (empty suffix). -/
def renameCol (cols1 : List String) (c : String) : String :=
  if c ∈ cols1 then c ++ "_standings" else c

/-- One row of the merged frame: all `df1` cells under their own column
names, then all non-key `df2` cells under their (possibly suffixed)
names. -/
def mergeRow (cols1 cols2 : List String) (r1 r2 : List Val) : Rec :=
  cols1.zip r1 ++
    ((cols2.zip r2).filter fun p => decide (p.1 ≠ "Player")).map
      (fun p => (renameCol cols1 p.1, p.2))

/-- Column schema of the merged frame. -/
def mergedCols (cols1 cols2 : List String) : List String :=
  cols1 ++ (cols2.filter fun c => decide (c ≠ "Player")).map (renameCol cols1)

/-- `pd.merge(df1, df2, on='Player', how='inner', suffixes=('','_standings'))`
(Helpers.py line 137): every pair of rows with equal `Player` cells, in
left-frame order. -/
def standardJoin (df1 df2 : Table) : List Rec :=
  df1.rows.flatMap fun r1 =>
    (df2.rows.filter fun r2 =>
        decide (getCell df2.cols "Player" r2 = getCell df1.cols "Player" r1)).map
      (mergeRow df1.cols df2.cols r1)

/-- The `Player` column of a frame as a list of cells. -/
def playerVals (t : Table) : List Val :=
  t.rows.filterMap (getCell t.cols "Player")

/-- `df['Player'].value_counts()[... > 1].index.tolist()`
(Helpers.py lines 140-141): the distinct `Player` values occurring more
than once. -/
def dupsOf (t : Table) : List Val :=
  (playerVals t).dedup.filter fun v => decide (1 < (playerVals t).count v)

/-- `list(set(duplicate_names_df1 + duplicate_names_df2))`
(Helpers.py line 142), in a canonical order; Python's `set` order is
process-dependent, and `fuzzy_joinWith` below is parameterized by the
order so that order-independence can be stated. -/
def dupNames (df1 df2 : Table) : List Val :=
  (dupsOf df1 ++ dupsOf df2).dedup

/-- `row.Rank` on an `itertuples` row: fails when the frame has no `Rank`
column (and rank arithmetic fails on a non-numeric cell). -/
def rankOf (cols : List String) (row : List Val) : Except String ℤ :=
  match getCell cols "Rank" row with
  | some (Val.num n) => Except.ok n
  | _ => Except.error "Rank unavailable"

/-- The ranks of all rows of a group, failing at the first bad row. -/
def ranksOf (cols : List String) : List (List Val) → Except String (List ℤ)
  | [] => Except.ok []
  | r :: rs =>
    match rankOf cols r, ranksOf cols rs with
    | Except.ok a, Except.ok as => Except.ok (a :: as)
    | Except.error e, _ => Except.error e
    | Except.ok _, Except.error e => Except.error e

/-- `distances[i, j] = abs(row1.Rank - row2.Rank)` (Helpers.py lines
157-161), with `∞` (`⊤`) used for invalidated entries. -/
def distMatrix (xs ys : List ℤ) : List (List (WithTop ℕ)) :=
  xs.map fun a => ys.map fun b => ((a - b).natAbs : WithTop ℕ)

/-- Row-major enumeration of a matrix with its index pairs. -/
def entriesRM (d : List (List (WithTop ℕ))) : List ((ℕ × ℕ) × WithTop ℕ) :=
  (d.enum.map fun p => p.2.enum.map fun q => ((p.1, q.1), q.2)).flatten

/-- `np.unravel_index(distances.argmin(), distances.shape)`: the index of
the first minimal entry in row-major order. -/
def argminRM (d : List (List (WithTop ℕ))) : ℕ × ℕ :=
  match entriesRM d with
  | [] => (0, 0)
  | e :: es => (es.foldl (fun best x => if x.2 < best.2 then x else best) e).1

/-- Invalidate row `i` and column `j` (Helpers.py lines 171-172). -/
def maskRM (i j : ℕ) (d : List (List (WithTop ℕ))) : List (List (WithTop ℕ)) :=
  d.enum.map fun p => p.2.enum.map fun q =>
    if p.1 = i ∨ q.1 = j then (⊤ : WithTop ℕ) else q.2

/-- The greedy extraction loop (Helpers.py lines 164-172), running
`fuel = min(len(dup_df1), len(dup_df2))` iterations. -/
def greedyLoop : ℕ → List (List (WithTop ℕ)) → List (ℕ × ℕ) → List (ℕ × ℕ)
  | 0, _, acc => acc.reverse
  | k + 1, d, acc =>
    let ij := argminRM d
    greedyLoop k (maskRM ij.1 ij.2 d) (ij :: acc)

/-- The matched index pairs for one duplicate name. -/
def matchedPairs (xs ys : List ℤ) : List (ℕ × ℕ) :=
  greedyLoop (min xs.length ys.length) (distMatrix xs ys) []

/-- The body of the per-duplicate-name loop (Helpers.py lines 149-185):
gather both groups, skip if one is empty, otherwise read the ranks,
greedily match, and emit one three-field record per matched pair. -/
def perName (df1 df2 : Table) (nm : Val) : Except String (List Rec) :=
  let d1 := df1.rows.filter fun r => decide (getCell df1.cols "Player" r = some nm)
  let d2 := df2.rows.filter fun r => decide (getCell df2.cols "Player" r = some nm)
  if 0 < d1.length ∧ 0 < d2.length then
    match ranksOf df1.cols d1, ranksOf df2.cols d2 with
    | Except.ok ranks1, Except.ok ranks2 =>
      Except.ok ((matchedPairs ranks1 ranks2).map fun ij =>
        [("name",
          match getCell df1.cols "Player" (d1.getD ij.1 []) with
          | some v => v
          | none => nm),
         ("rank_df1", Val.num (ranks1.getD ij.1 0)),
         ("rank_df2", Val.num (ranks2.getD ij.2 0))])
    | Except.error e, _ => Except.error e
    | Except.ok _, Except.error e => Except.error e
  else Except.ok []

/-- The whole duplicate-name loop, over a given ordering of the duplicate
name set; an exception raised for some name aborts the call. -/
def fuzzyResultsWith (df1 df2 : Table) : List Val → Except String (List Rec)
  | [] => Except.ok []
  | nm :: ns =>
    match perName df1 df2 nm, fuzzyResultsWith df1 df2 ns with
    | Except.ok rs, Except.ok rest => Except.ok (rs ++ rest)
    | Except.error e, _ => Except.error e
    | Except.ok _, Except.error e => Except.error e

/-- Does the record's `Player` cell belong to the duplicate-name list
(`standard_join['Player'].isin(duplicate_names)`, Helpers.py line 145)? -/
def isInDups (dups : List Val) (r : Rec) : Bool :=
  match List.lookup "Player" r with
  | some v => decide (v ∈ dups)
  | none => false

/-- `fuzzy_join` with the duplicate-name iteration order made explicit.
The merge raises `KeyError` first when either frame lacks `Player`
(Helpers.py line 137); the clean join keeps non-duplicate names; fuzzy
records are appended after it (lines 188-192). -/
def fuzzy_joinWith (df1 df2 : Table) (dups : List Val) : Except String (List Rec) :=
  if "Player" ∈ df1.cols ∧ "Player" ∈ df2.cols then
    match fuzzyResultsWith df1 df2 dups with
    | Except.ok fz =>
      Except.ok
        (((standardJoin df1 df2).filter fun r => ! isInDups dups r) ++ fz)
    | Except.error e => Except.error e
  else Except.error "KeyError: Player"

/-- `fuzzy_join(df1, df2)` (Helpers.py lines 124-194). -/
def fuzzy_join (df1 df2 : Table) : Except String (List Rec) :=
  fuzzy_joinWith df1 df2 (dupNames df1 df2)

/-- A record refers to the name `nm`: its `name` field (fuzzy records) or
its `Player` field (exact-phase records) holds `nm`. -/
def nameMatches (nm : Val) (r : Rec) : Bool :=
  decide (List.lookup "name" r = some nm) ||
    decide (List.lookup "Player" r = some nm)

/-- Spec reference definition, for the refinement claim C10: the plain
inner join of the two tables on the name key — every pair of rows that
agree on `Player` yields one record carrying all columns of both rows. -/
def plainInnerJoin (df1 df2 : Table) : List Rec :=
  df1.rows.flatMap fun r1 =>
    (df2.rows.filter fun r2 =>
        decide (getCell df2.cols "Player" r2 = getCell df1.cols "Player" r1)).map
      (mergeRow df1.cols df2.cols r1)

/-! ### Lemmas about the greedy matcher -/

theorem greedyLoop_length :
    ∀ (k : ℕ) (d : List (List (WithTop ℕ))) (acc : List (ℕ × ℕ)),
      (greedyLoop k d acc).length = k + acc.length
  | 0, _, acc => by simp [greedyLoop]
  | k + 1, d, acc => by
    rw [greedyLoop, greedyLoop_length k _ _]
    simp
    omega

theorem matchedPairs_length (xs ys : List ℤ) :
    (matchedPairs xs ys).length = min xs.length ys.length := by
  rw [matchedPairs, greedyLoop_length]
  rfl

theorem ranksOf_length (cols : List String) :
    ∀ (rs : List (List Val)) (as_ : List ℤ),
      ranksOf cols rs = Except.ok as_ → as_.length = rs.length
  | [], as_, h => by
    rw [ranksOf] at h
    cases h
    rfl
  | r :: rs, as_, h => by
    rw [ranksOf] at h
    cases hr : rankOf cols r with
    | error e => rw [hr] at h; cases h
    | ok a =>
      rw [hr] at h
      cases hrs : ranksOf cols rs with
      | error e => rw [hrs] at h; cases h
      | ok as2 =>
        rw [hrs] at h
        cases h
        simp [ranksOf_length cols rs as2 hrs]

/-! ### Lemmas about cell access and merged rows -/

theorem getCell_nil (cols : List String) (c : String) :
    getCell cols c [] = none := by
  unfold getCell
  cases cols.indexOf? c <;> rfl

/-- The `name` field value of a fuzzy record: the row was filtered to have
`Player = nm`, so the field (read back from the row, with `nm` as the
unreachable fallback) is always `nm` itself. -/
theorem getD_filtered_player (cols : List String) (nm : Val)
    (rows : List (List Val)) (i : ℕ) :
    (match getCell cols "Player"
        ((rows.filter fun r => decide (getCell cols "Player" r = some nm)).getD i []) with
     | some v => v
     | none => nm) = nm := by
  by_cases hi : i < (rows.filter fun r => decide (getCell cols "Player" r = some nm)).length
  · have hmem : (rows.filter fun r => decide (getCell cols "Player" r = some nm)).getD i []
        ∈ rows.filter fun r => decide (getCell cols "Player" r = some nm) := by
      rw [List.getD_eq_getElem?_getD, List.getElem?_eq_getElem hi]
      exact List.getElem_mem hi
    have hp := List.of_mem_filter hmem
    rw [decide_eq_true_iff] at hp
    rw [hp]
  · rw [List.getD_eq_default _ _ (not_lt.mp hi), getCell_nil]

theorem lookup_zip (cols : List String) :
    ∀ (row : List Val) (k : String),
      List.lookup k (cols.zip row) = (cols.indexOf? k).bind row.get? := by
  induction cols with
  | nil => intro row k; simp [List.indexOf?]
  | cons c cs ih =>
    intro row k
    cases row with
    | nil =>
      rw [List.zip_nil_right]
      cases h : (c :: cs).indexOf? k with
      | none => rfl
      | some i => simp
    | cons v vs =>
      rw [List.zip_cons_cons, List.indexOf?, List.findIdx?_cons]
      by_cases hk : c = k
      · subst hk
        simp [List.lookup]
      · have hbeq : (c == k) = false := beq_eq_false_iff_ne.mpr hk
        have hbeq2 : (k == c) = false := beq_eq_false_iff_ne.mpr (Ne.symm hk)
        rw [hbeq]
        simp only [List.lookup, hbeq2]
        rw [ih vs k, List.indexOf?]
        rw [List.findIdx?_succ]
        cases List.findIdx? (fun x => x == k) cs with
        | none => rfl
        | some j => simp

theorem getCell_isSome (cols : List String) :
    ∀ (row : List Val) (k : String), k ∈ cols → row.length = cols.length →
      (getCell cols k row).isSome := by
  induction cols with
  | nil => intro row k hk; cases hk
  | cons c cs ih =>
    intro row k hk hl
    cases row with
    | nil => simp at hl
    | cons v vs =>
      unfold getCell
      rw [List.indexOf?, List.findIdx?_cons]
      by_cases hck : c = k
      · subst hck; simp
      · have hbeq : (c == k) = false := beq_eq_false_iff_ne.mpr hck
        rw [hbeq]
        simp only [if_neg Bool.false_ne_true]
        have hk2 : k ∈ cs := by
          cases hk with
          | head => exact absurd rfl hck
          | tail _ h => exact h
        have hl2 : vs.length = cs.length := by simpa using hl
        have := ih vs k hk2 hl2
        unfold getCell at this
        rw [List.indexOf?] at this
        rw [List.findIdx?_succ]
        cases hfi : List.findIdx? (fun x => x == k) cs with
        | none => rw [hfi] at this; simp at this
        | some j => rw [hfi] at this; simpa using this

/-- The `Player` field of a merged record is the left row's `Player`
cell (the join key is taken from `df1`; the right copy is renamed or
dropped). -/
theorem lookup_player_mergeRow (cols1 cols2 : List String) (r1 r2 : List Val)
    (hp : "Player" ∈ cols1) (h1 : r1.length = cols1.length) :
    List.lookup "Player" (mergeRow cols1 cols2 r1 r2) =
      getCell cols1 "Player" r1 := by
  unfold mergeRow
  rw [List.lookup_append, lookup_zip]
  have : (getCell cols1 "Player" r1).isSome := getCell_isSome cols1 r1 "Player" hp h1
  unfold getCell at this ⊢
  cases h : (cols1.indexOf? "Player").bind r1.get? with
  | none => rw [h] at this; simp at this
  | some v => rfl

theorem mergeRow_keys (cols1 cols2 : List String) (r1 r2 : List Val)
    (h1 : r1.length = cols1.length) (h2 : r2.length = cols2.length) :
    (mergeRow cols1 cols2 r1 r2).map Prod.fst = mergedCols cols1 cols2 := by
  unfold mergeRow mergedCols
  rw [List.map_append]
  congr 1
  · exact List.map_fst_zip cols1 r1 (le_of_eq h1.symm)
  · rw [List.map_map]
    have hcomp : (Prod.fst ∘ fun p : String × Val => (renameCol cols1 p.1, p.2))
        = renameCol cols1 ∘ Prod.fst := rfl
    rw [hcomp, ← List.map_map]
    congr 1
    have hq : (fun p : String × Val => decide (p.1 ≠ "Player"))
        = (fun c => decide (c ≠ "Player")) ∘ Prod.fst := rfl
    rw [hq, ← List.filter_map, List.map_fst_zip cols2 r2 (le_of_eq h2.symm)]

theorem lookup_eq_none_of_not_mem_keys :
    ∀ {r : Rec} {k : String}, k ∉ r.map Prod.fst → List.lookup k r = none
  | [], _, _ => rfl
  | (a, v) :: r, k, h => by
    have hk : k ≠ a := by
      intro he; exact h (by simp [he])
    have hr : k ∉ r.map Prod.fst := fun hm => h (by simp [hm])
    simp only [List.lookup, beq_eq_false_iff_ne.mpr hk]
    exact lookup_eq_none_of_not_mem_keys hr

theorem name_not_in_mergedCols (cols1 cols2 : List String)
    (hn1 : "name" ∉ cols1) (hn2 : "name" ∉ cols2) :
    "name" ∉ mergedCols cols1 cols2 := by
  unfold mergedCols
  rw [List.mem_append]
  rintro (h | h)
  · exact hn1 h
  · rcases List.mem_map.mp h with ⟨c, hc, hren⟩
    have hcm : c ∈ cols2 := List.mem_of_mem_filter hc
    unfold renameCol at hren
    by_cases hin : c ∈ cols1
    · rw [if_pos hin] at hren
      have hlen : (c ++ "_standings").length = "name".length := by rw [hren]
      rw [String.length_append] at hlen
      have h10 : "_standings".length = 10 := rfl
      have h4 : "name".length = 4 := rfl
      omega
    · rw [if_neg hin] at hren
      exact hn2 (hren ▸ hcm)

theorem columnProfile_ok (n : ℕ) (b : Bool) (data : List ℤ)
    (h : b = true → n = 0 → columnKeys n data = []) :
    columnProfile n b data = Except.ok ((columnKeys n data).map fun k =>
      (k, if b then (columnCounter n data k : ℚ) / (n : ℚ)
          else (columnCounter n data k : ℚ))) := by
  cases b with
  | false => simp [columnProfile]
  | true =>
    have h2 : ¬(n = 0 ∧ columnKeys n data ≠ []) := by
      rintro ⟨h0, hne⟩; exact hne (h rfl h0)
    simp [columnProfile, h2]

theorem profileCols_ok (n : ℕ) (b : Bool) (f : List ℤ → List (ℤ × ℚ)) :
    ∀ cs : List (List ℤ), (∀ c ∈ cs, columnProfile n b c = Except.ok (f c)) →
      profileCols n b cs = Except.ok (cs.map f)
  | [], _ => rfl
  | c :: cs, h => by
    have hc : columnProfile n b c = Except.ok (f c) := h c (List.mem_cons_self c cs)
    have hcs : profileCols n b cs = Except.ok (cs.map f) :=
      profileCols_ok n b f cs fun x hx => h x (List.mem_cons_of_mem c hx)
    simp [profileCols, hc, hcs]

/-- With no explicitly stored zeros and a well-formed column, the final
counter sums to the row count over the key set. -/
theorem columnCounter_sum (n : ℕ) (data : List ℤ)
    (hlen : data.length ≤ n) (h0 : (0 : ℤ) ∉ data) :
    ((columnKeys n data).map fun k => columnCounter n data k).sum = n := by
  have hcnt : ∀ k ∈ data.dedup, columnCounter n data k = data.count k := by
    intro k hk
    have hk0 : k ≠ 0 := by
      intro he; exact h0 (he ▸ List.mem_dedup.mp hk)
    unfold columnCounter
    simp [hk0]
  have hded : ((data.dedup).map fun k => columnCounter n data k).sum = data.length := by
    rw [List.map_congr_left hcnt]
    exact List.sum_map_count_dedup_eq_length data
  by_cases hlt : data.length < n
  · have hguard : 0 < (n : ℤ) - data.length ∧ (0 : ℤ) ∉ data := by
      constructor
      · omega
      · exact h0
    have hkeys : columnKeys n data = data.dedup ++ [0] := by
      unfold columnKeys; rw [if_pos hguard]
    have hzc : columnCounter n data 0 = n - data.length := by
      unfold columnCounter; rw [if_pos ⟨hguard.1, rfl⟩]
    rw [hkeys, List.map_append, List.sum_append, hded]
    simp [hzc]
    omega
  · have heq : data.length = n := le_antisymm hlen (not_lt.mp hlt)
    have hguard : ¬(0 < (n : ℤ) - data.length ∧ (0 : ℤ) ∉ data) := by
      rintro ⟨hpos, -⟩; omega
    have hkeys : columnKeys n data = data.dedup := by
      unfold columnKeys; rw [if_neg hguard]
    rw [hkeys, hded, heq]

/-! ### Lemmas about the per-name fuzzy phase -/

theorem perName_facts (df1 df2 : Table) (nm : Val) (rs : List Rec)
    (h : perName df1 df2 nm = Except.ok rs) :
    rs.length = min
      ((df1.rows.filter fun r => decide (getCell df1.cols "Player" r = some nm)).length)
      ((df2.rows.filter fun r => decide (getCell df2.cols "Player" r = some nm)).length) ∧
    ∀ r ∈ rs, List.lookup "name" r = some nm ∧ List.lookup "Player" r = none ∧
      r.map Prod.fst = ["name", "rank_df1", "rank_df2"] := by
  unfold perName at h
  by_cases hc :
      0 < (df1.rows.filter fun r => decide (getCell df1.cols "Player" r = some nm)).length ∧
      0 < (df2.rows.filter fun r => decide (getCell df2.cols "Player" r = some nm)).length
  · rw [if_pos hc] at h
    cases hr1 : ranksOf df1.cols
        (df1.rows.filter fun r => decide (getCell df1.cols "Player" r = some nm)) with
    | error e => rw [hr1] at h; cases h
    | ok ranks1 =>
      rw [hr1] at h
      cases hr2 : ranksOf df2.cols
          (df2.rows.filter fun r => decide (getCell df2.cols "Player" r = some nm)) with
      | error e => rw [hr2] at h; cases h
      | ok ranks2 =>
        rw [hr2] at h
        cases h
        constructor
        · rw [List.length_map, matchedPairs_length,
            ranksOf_length df1.cols _ ranks1 hr1, ranksOf_length df2.cols _ ranks2 hr2]
        · intro r hr
          rcases List.mem_map.mp hr with ⟨ij, hij, rfl⟩
          refine ⟨?_, ?_, ?_⟩
          · simp only [List.lookup]
            exact congrArg some (getD_filtered_player df1.cols nm df1.rows ij.1)
          · simp [List.lookup]
          · rfl
  · rw [if_neg hc] at h
    cases h
    refine ⟨?_, by intro r hr; cases hr⟩
    simp only [List.length_nil]
    omega

theorem fuzzyResultsWith_cons_ok (df1 df2 : Table) (nm : Val) (ns : List Val)
    (fz : List Rec) (h : fuzzyResultsWith df1 df2 (nm :: ns) = Except.ok fz) :
    ∃ a b, perName df1 df2 nm = Except.ok a ∧
      fuzzyResultsWith df1 df2 ns = Except.ok b ∧ fz = a ++ b := by
  rw [fuzzyResultsWith] at h
  cases hp : perName df1 df2 nm with
  | error e => rw [hp] at h; cases h
  | ok a =>
    rw [hp] at h
    cases hf : fuzzyResultsWith df1 df2 ns with
    | error e => rw [hf] at h; cases h
    | ok b =>
      rw [hf] at h
      cases h
      exact ⟨a, b, rfl, rfl, rfl⟩

theorem fuzzyResultsWith_cons_of (df1 df2 : Table) (nm : Val) (ns : List Val)
    (a b : List Rec) (hp : perName df1 df2 nm = Except.ok a)
    (hf : fuzzyResultsWith df1 df2 ns = Except.ok b) :
    fuzzyResultsWith df1 df2 (nm :: ns) = Except.ok (a ++ b) := by
  rw [fuzzyResultsWith, hp, hf]

theorem nameMatches_perName_record (df1 df2 : Table) (d nm : Val) (rs : List Rec)
    (h : perName df1 df2 d = Except.ok rs) (r : Rec) (hr : r ∈ rs) :
    nameMatches nm r = decide (d = nm) := by
  obtain ⟨-, hfacts⟩ := perName_facts df1 df2 d rs h
  obtain ⟨hn, hp, -⟩ := hfacts r hr
  unfold nameMatches
  rw [hn, hp]
  simp

theorem fuzzy_filter_nil_of_not_mem (df1 df2 : Table) (nm : Val) :
    ∀ (ds : List Val) (fz : List Rec),
      fuzzyResultsWith df1 df2 ds = Except.ok fz → nm ∉ ds →
      fz.filter (nameMatches nm) = []
  | [], fz, h, _ => by
    rw [fuzzyResultsWith] at h
    cases h
    rfl
  | d :: ds, fz, h, hnm => by
    obtain ⟨a, b, hp, hf, rfl⟩ := fuzzyResultsWith_cons_ok df1 df2 d ds fz h
    rw [List.filter_append,
      fuzzy_filter_nil_of_not_mem df1 df2 nm ds b hf
        (fun hm => hnm (List.mem_cons_of_mem d hm)),
      List.append_nil]
    apply List.filter_eq_nil_iff.mpr
    intro r hr
    rw [nameMatches_perName_record df1 df2 d nm a hp r hr]
    simp only [decide_eq_true_iff]
    intro he
    exact hnm (he ▸ List.mem_cons_self d ds)

theorem fuzzy_filter_count (df1 df2 : Table) (nm : Val) :
    ∀ (ds : List Val) (fz : List Rec),
      fuzzyResultsWith df1 df2 ds = Except.ok fz → ds.Nodup → nm ∈ ds →
      (fz.filter (nameMatches nm)).length = min
        ((df1.rows.filter fun r => decide (getCell df1.cols "Player" r = some nm)).length)
        ((df2.rows.filter fun r => decide (getCell df2.cols "Player" r = some nm)).length)
  | [], fz, _, _, hmem => absurd hmem (List.not_mem_nil nm)
  | d :: ds, fz, h, hnd, hmem => by
    obtain ⟨a, b, hp, hf, rfl⟩ := fuzzyResultsWith_cons_ok df1 df2 d ds fz h
    rw [List.filter_append, List.length_append]
    by_cases hd : d = nm
    · subst hd
      rw [fuzzy_filter_nil_of_not_mem df1 df2 d ds b hf (List.nodup_cons.mp hnd).1]
      have ha : a.filter (nameMatches d) = a := by
        apply List.filter_eq_self.mpr
        intro r hr
        rw [nameMatches_perName_record df1 df2 d d a hp r hr]
        simp
      rw [ha]
      simp only [List.length_nil, Nat.add_zero]
      exact (perName_facts df1 df2 d a hp).1
    · have ha : a.filter (nameMatches nm) = [] := by
        apply List.filter_eq_nil_iff.mpr
        intro r hr
        rw [nameMatches_perName_record df1 df2 d nm a hp r hr]
        simp only [decide_eq_true_iff]
        exact hd
      have hmem2 : nm ∈ ds := by
        cases hmem with
        | head => exact absurd rfl hd
        | tail _ hm => exact hm
      rw [ha]
      simp only [List.length_nil, Nat.zero_add]
      exact fuzzy_filter_count df1 df2 nm ds b hf (List.nodup_cons.mp hnd).2 hmem2

/-! ### Lemmas about duplicate-name detection -/

theorem count_playerVals (t : Table) (nm : Val) :
    (playerVals t).count nm =
      (t.rows.filter fun r => decide (getCell t.cols "Player" r = some nm)).length := by
  unfold playerVals
  rw [List.count_filterMap, ← List.countP_eq_length_filter]
  apply List.countP_congr
  intro r _
  rw [beq_iff_eq, decide_eq_true_iff]

theorem mem_dupsOf (t : Table) (nm : Val) :
    nm ∈ dupsOf t ↔ 1 < (playerVals t).count nm := by
  unfold dupsOf
  rw [List.mem_filter]
  constructor
  · rintro ⟨-, h⟩
    exact of_decide_eq_true h
  · intro h
    refine ⟨List.mem_dedup.mpr ?_, decide_eq_true h⟩
    exact List.count_pos_iff.mp (by omega)

theorem mem_dupNames_iff (df1 df2 : Table) (nm : Val) :
    nm ∈ dupNames df1 df2 ↔
      1 < (playerVals df1).count nm ∨ 1 < (playerVals df2).count nm := by
  unfold dupNames
  rw [List.mem_dedup, List.mem_append, mem_dupsOf, mem_dupsOf]

/-! ### Lemmas about the exact-match phase -/

theorem nameMatches_mergeRow (df1 df2 : Table) (nm : Val) (r1 r2 : List Val)
    (hn1 : "name" ∉ df1.cols) (hn2 : "name" ∉ df2.cols)
    (h1 : r1.length = df1.cols.length) (h2 : r2.length = df2.cols.length)
    (hp : "Player" ∈ df1.cols) :
    nameMatches nm (mergeRow df1.cols df2.cols r1 r2) =
      decide (getCell df1.cols "Player" r1 = some nm) := by
  unfold nameMatches
  have hnone : List.lookup "name" (mergeRow df1.cols df2.cols r1 r2) = none := by
    apply lookup_eq_none_of_not_mem_keys
    rw [mergeRow_keys df1.cols df2.cols r1 r2 h1 h2]
    exact name_not_in_mergedCols df1.cols df2.cols hn1 hn2
  rw [hnone, lookup_player_mergeRow df1.cols df2.cols r1 r2 hp h1]
  simp

theorem isInDups_mergeRow (dups : List Val) (df1 df2 : Table) (r1 r2 : List Val)
    (hp : "Player" ∈ df1.cols) (h1 : r1.length = df1.cols.length) :
    isInDups dups (mergeRow df1.cols df2.cols r1 r2) =
      match getCell df1.cols "Player" r1 with
      | some v => decide (v ∈ dups)
      | none => false := by
  unfold isInDups
  rw [lookup_player_mergeRow df1.cols df2.cols r1 r2 hp h1]

/-- A list whose filter by `p` is the singleton `[x]`, flat-mapped through
a function that is `y` on the one positive element and `[]` on every
negative one, collapses to `y`. -/
theorem flatMap_singleton_filter {α β : Type} (p : α → Bool) (g : α → List β)
    (y : List β) :
    ∀ (l : List α) (x : α), l.filter p = [x] →
      (∀ a ∈ l, (p a = true → g a = y) ∧ (p a = false → g a = [])) →
      l.flatMap g = y
  | [], _, h, _ => by simp at h
  | a :: t, x, h, hg => by
    rw [List.flatMap_cons]
    cases hpa : p a with
    | true =>
      rw [List.filter_cons_of_pos hpa] at h
      obtain ⟨-, hft⟩ := List.cons_eq_cons.mp h
      have hgt : t.flatMap g = [] := List.flatMap_eq_nil_iff.mpr (by
        intro b hb
        have hnb := List.filter_eq_nil_iff.mp hft b hb
        have hpb : p b = false := by
          cases hpb2 : p b with
          | true => exact absurd hpb2 hnb
          | false => rfl
        exact (hg b (List.mem_cons_of_mem a hb)).2 hpb)
      rw [(hg a (List.mem_cons_self a t)).1 hpa, hgt, List.append_nil]
    | false =>
      rw [List.filter_cons_of_neg (by rw [hpa]; exact Bool.false_ne_true)] at h
      rw [(hg a (List.mem_cons_self a t)).2 hpa, List.nil_append]
      exact flatMap_singleton_filter p g y t x h
        (fun b hb => hg b (List.mem_cons_of_mem a hb))

/-! ### Claims C1, C2, C5: the sparse profiler -/

/-- C1 (status `code_bug`): evaluation of the code at the failing input.
A 2-row matrix whose single column stores one explicit zero has one
implicit zero (`row_count - explicit_entry_count = 1`) and one explicit
zero, so the claim requires the zero bucket to report `1 + 1 = 2`; the
assignment `counter[0] = zeros_count` on line 96 of Helpers.py discards
the explicit zero and the code reports `1`. -/
theorem c1_zero_bucket_at_failing_input :
    sparse_column_value_counts ⟨2, [[0]]⟩ false = Except.ok [[(0, 1)]] ∧
      ((1 : ℚ) ≠ ((2 : ℕ) - 1 : ℚ) + 1) := by
  constructor
  · rfl
  · norm_num

/-- C2, counterexample: on the 2-row matrix whose single column stores one
explicit zero, the unnormalized bucket counts sum to `1`, not to the row
count `2`, because the explicit zero is dropped from the zero bucket. -/
theorem c2_counterexample :
    sparse_column_value_counts ⟨2, [[0]]⟩ false = Except.ok [[(0, 1)]] ∧
      profileSum [(0, 1)] ≠ ((2 : ℕ) : ℚ) := by
  constructor
  · rfl
  · norm_num [profileSum]

/-- C2, amended: for every well-formed matrix none of whose columns stores
an explicit zero entry, each column's bucket counts sum to the row count
with `normalize=False`, and, when the matrix has at least one row, each
column's bucket frequencies sum to exactly `1` with `normalize=True`. -/
theorem c2_profile_sums (m : SparseMatrix) (hwf : m.Wf)
    (hz : ∀ c ∈ m.cols, (0 : ℤ) ∉ c) :
    (∃ ps, sparse_column_value_counts m false = Except.ok ps ∧
        ∀ p ∈ ps, profileSum p = (m.n_rows : ℚ)) ∧
    (0 < m.n_rows →
      ∃ ps, sparse_column_value_counts m true = Except.ok ps ∧
        ∀ p ∈ ps, profileSum p = 1) := by
  have keysum : ∀ c ∈ m.cols,
      ((columnKeys m.n_rows c).map fun k => columnCounter m.n_rows c k).sum
        = m.n_rows :=
    fun c hc => columnCounter_sum m.n_rows c (hwf c hc) (hz c hc)
  constructor
  · refine ⟨m.cols.map fun c => (columnKeys m.n_rows c).map fun k =>
      (k, ((columnCounter m.n_rows c k : ℕ) : ℚ)), ?_, ?_⟩
    · unfold sparse_column_value_counts
      have := profileCols_ok m.n_rows false
        (fun c => (columnKeys m.n_rows c).map fun k =>
          (k, ((columnCounter m.n_rows c k : ℕ) : ℚ)))
        m.cols (fun c _ => by simpa using columnProfile_ok m.n_rows false c (by simp))
      simpa using this
    · intro p hp
      rcases List.mem_map.mp hp with ⟨c, hc, rfl⟩
      unfold profileSum
      rw [List.map_map]
      have hcomp : (Prod.snd ∘ fun k : ℤ =>
          ((k, ((columnCounter m.n_rows c k : ℕ) : ℚ)) : ℤ × ℚ))
          = fun k => ((columnCounter m.n_rows c k : ℕ) : ℚ) := rfl
      rw [hcomp, show (fun k : ℤ => ((columnCounter m.n_rows c k : ℕ) : ℚ))
          = Nat.cast ∘ fun k => columnCounter m.n_rows c k from rfl,
        ← List.map_map, ← Nat.cast_list_sum, keysum c hc]
  · intro hpos
    refine ⟨m.cols.map fun c => (columnKeys m.n_rows c).map fun k =>
      (k, ((columnCounter m.n_rows c k : ℕ) : ℚ) / (m.n_rows : ℚ)), ?_, ?_⟩
    · unfold sparse_column_value_counts
      have := profileCols_ok m.n_rows true
        (fun c => (columnKeys m.n_rows c).map fun k =>
          (k, ((columnCounter m.n_rows c k : ℕ) : ℚ) / (m.n_rows : ℚ)))
        m.cols (fun c _ => by
          simpa using columnProfile_ok m.n_rows true c
            (fun _ h0 => absurd hpos (by omega)))
      simpa using this
    · intro p hp
      rcases List.mem_map.mp hp with ⟨c, hc, rfl⟩
      unfold profileSum
      rw [List.map_map]
      have hne : (m.n_rows : ℚ) ≠ 0 := Nat.cast_ne_zero.mpr (by omega)
      have hcomp : (Prod.snd ∘ fun k : ℤ =>
          ((k, ((columnCounter m.n_rows c k : ℕ) : ℚ) / (m.n_rows : ℚ)) : ℤ × ℚ))
          = fun k => ((columnCounter m.n_rows c k : ℕ) : ℚ) * ((m.n_rows : ℚ))⁻¹ := by
        funext k; simp [div_eq_mul_inv]
      rw [hcomp, List.sum_map_mul_right,
        show (fun k : ℤ => ((columnCounter m.n_rows c k : ℕ) : ℚ))
          = Nat.cast ∘ fun k => columnCounter m.n_rows c k from rfl,
        ← List.map_map, ← Nat.cast_list_sum, keysum c hc]
      exact mul_inv_cancel₀ hne

/-- C2, witness: the amended theorem applied to the 2-row matrix `[[3], []]`
(one column storing a single 3, one empty column). -/
theorem c2_witness :
    ∃ ps, sparse_column_value_counts ⟨2, [[3], []]⟩ false = Except.ok ps ∧
      ∀ p ∈ ps, profileSum p = (((⟨2, [[3], []]⟩ : SparseMatrix).n_rows : ℕ) : ℚ) :=
  (c2_profile_sums ⟨2, [[3], []]⟩ (by decide) (by decide)).1

/-- C5, counterexample: on a matrix with zero rows and one (necessarily
empty) column, `sparse_column_value_counts` with `normalize=True` raises
nothing and returns an ordinary result — one empty profile — because the
normalization comprehension iterates over an empty counter and never
divides.  No `InvalidShapeError` (or any other signal) reaches the
caller. -/
theorem c5_counterexample :
    sparse_column_value_counts ⟨0, [[]]⟩ true = Except.ok [[]] := rfl

/-- C5, amended: on every well-formed matrix with zero rows the profiler
silently returns one empty profile per column with `normalize=True`; no
error is raised and no signal accompanies the degenerate result. -/
theorem c5_zero_rows_silent (m : SparseMatrix) (h0 : m.n_rows = 0) (hwf : m.Wf) :
    sparse_column_value_counts m true = Except.ok (m.cols.map fun _ => []) := by
  unfold sparse_column_value_counts
  have hcol : ∀ c ∈ m.cols, c = [] := by
    intro c hc
    have := hwf c hc
    rw [h0] at this
    exact List.eq_nil_of_length_eq_zero (Nat.le_zero.mp this)
  have := profileCols_ok m.n_rows true (fun _ => ([] : List (ℤ × ℚ))) m.cols
    (fun c hc => by rw [hcol c hc, h0]; rfl)
  simpa using this

/-- C5, witness: the amended theorem applied to a zero-row matrix with two
columns. -/
theorem c5_witness :
    sparse_column_value_counts ⟨0, [[], []]⟩ true =
      Except.ok ((⟨0, [[], []]⟩ : SparseMatrix).cols.map fun _ => []) :=
  c5_zero_rows_silent ⟨0, [[], []]⟩ rfl (by decide)

/-! ### Claims C3, C4, C6, C7, C8, C9, C10: the fuzzy join -/

/-- C3: whenever the join succeeds, a name `nm` that is ambiguous (occurs
more than once in at least one table) and occurs `m` times in `df1` and
`n` times in `df2` appears on exactly `min m n` output records — the
fuzzy phase emits one per matched pair, surplus rows are dropped without
an error, and the exact phase contributes none for an ambiguous name.
(The hypotheses `"name" ∉ cols` say the input tables do not themselves
carry a column literally called `name`, the field the fuzzy phase uses
for the key.) -/
theorem c3_ambiguous_name_yields_min_matches (df1 df2 : Table) (nm : Val)
    (res : List Rec) (hok : fuzzy_join df1 df2 = Except.ok res)
    (hwf1 : df1.Wf) (hwf2 : df2.Wf)
    (hn1 : "name" ∉ df1.cols) (hn2 : "name" ∉ df2.cols)
    (hamb : 1 < (playerVals df1).count nm ∨ 1 < (playerVals df2).count nm) :
    (res.filter (nameMatches nm)).length =
      min ((playerVals df1).count nm) ((playerVals df2).count nm) := by
  unfold fuzzy_join fuzzy_joinWith at hok
  by_cases hcond : "Player" ∈ df1.cols ∧ "Player" ∈ df2.cols
  · rw [if_pos hcond] at hok
    cases hfz : fuzzyResultsWith df1 df2 (dupNames df1 df2) with
    | error e => rw [hfz] at hok; cases hok
    | ok fz =>
      rw [hfz] at hok
      cases hok
      rw [List.filter_append, List.length_append]
      have hclean : ((standardJoin df1 df2).filter fun r =>
          !isInDups (dupNames df1 df2) r).filter (nameMatches nm) = [] := by
        apply List.filter_eq_nil_iff.mpr
        intro r hr
        have hmem := List.mem_of_mem_filter hr
        have hnd := List.of_mem_filter hr
        rcases List.mem_flatMap.mp hmem with ⟨r1, hr1, hrr⟩
        rcases List.mem_map.mp hrr with ⟨r2, hr2m, rfl⟩
        have hr2 : r2 ∈ df2.rows := List.mem_of_mem_filter hr2m
        rw [nameMatches_mergeRow df1 df2 nm r1 r2 hn1 hn2 (hwf1 r1 hr1)
          (hwf2 r2 hr2) hcond.1]
        simp only [decide_eq_true_iff]
        intro hcell
        rw [isInDups_mergeRow (dupNames df1 df2) df1 df2 r1 r2 hcond.1
          (hwf1 r1 hr1), hcell] at hnd
        have hmemdup : nm ∈ dupNames df1 df2 := (mem_dupNames_iff df1 df2 nm).mpr hamb
        simp [hmemdup] at hnd
      rw [hclean]
      simp only [List.length_nil, Nat.zero_add]
      rw [count_playerVals, count_playerVals]
      exact fuzzy_filter_count df1 df2 nm (dupNames df1 df2) fz hfz
        (List.nodup_dedup _) ((mem_dupNames_iff df1 df2 nm).mpr hamb)
  · rw [if_neg hcond] at hok
    cases hok

/-- C3, witness: in the two-Al-versus-one-Al example the single fuzzy
record is exactly `min 2 1 = 1` output record bearing the name. -/
theorem c3_witness :
    (([[("name", Val.str "Al"), ("rank_df1", Val.num 1), ("rank_df2", Val.num 2)]]
        : List Rec).filter (nameMatches (Val.str "Al"))).length =
      min ((playerVals ⟨["Player", "Rank"],
              [[Val.str "Al", Val.num 1], [Val.str "Al", Val.num 5]]⟩).count (Val.str "Al"))
          ((playerVals ⟨["Player", "Rank"],
              [[Val.str "Al", Val.num 2]]⟩).count (Val.str "Al")) :=
  c3_ambiguous_name_yields_min_matches
    ⟨["Player", "Rank"], [[Val.str "Al", Val.num 1], [Val.str "Al", Val.num 5]]⟩
    ⟨["Player", "Rank"], [[Val.str "Al", Val.num 2]]⟩
    (Val.str "Al")
    [[("name", Val.str "Al"), ("rank_df1", Val.num 1), ("rank_df2", Val.num 2)]]
    rfl (by decide) (by decide) (by decide) (by decide) (by decide)

/-- C6: on `A = [(Al,1), (Al,5)]`, `B = [(Al,2)]` the name `Al` is
ambiguous, the distance matrix is `[[1],[3]]`, the greedy step matches the
rank-1 row of `A` with the rank-2 row of `B`, and the whole join emits
exactly that one record (`rank_df1 = 1`, `rank_df2 = 2`); the rank-5 row
is dropped. -/
theorem c6_concrete_example :
    distMatrix [1, 5] [2] = [[((1 : ℕ) : WithTop ℕ)], [((3 : ℕ) : WithTop ℕ)]] ∧
    fuzzy_join
        ⟨["Player", "Rank"], [[Val.str "Al", Val.num 1], [Val.str "Al", Val.num 5]]⟩
        ⟨["Player", "Rank"], [[Val.str "Al", Val.num 2]]⟩ =
      Except.ok
        [[("name", Val.str "Al"), ("rank_df1", Val.num 1), ("rank_df2", Val.num 2)]] :=
  ⟨rfl, rfl⟩

/-- C7: every record emitted by the fuzzy phase carries exactly the three
fields `name`, `rank_df1`, `rank_df2` — no other column of the original
rows — while every record of the exact phase carries the full merged
schema (all columns of both frames, the right-hand clashes suffixed). -/
theorem c7_fuzzy_records_schema (df1 df2 : Table) :
    (∀ ds fz, fuzzyResultsWith df1 df2 ds = Except.ok fz →
      ∀ r ∈ fz, r.map Prod.fst = ["name", "rank_df1", "rank_df2"]) ∧
    (df1.Wf → df2.Wf → ∀ r ∈ standardJoin df1 df2,
      r.map Prod.fst = mergedCols df1.cols df2.cols) := by
  constructor
  · intro ds
    induction ds with
    | nil =>
      intro fz h r hr
      rw [fuzzyResultsWith] at h
      cases h
      cases hr
    | cons d ds ih =>
      intro fz h r hr
      obtain ⟨a, b, hp, hf, rfl⟩ := fuzzyResultsWith_cons_ok df1 df2 d ds fz h
      rcases List.mem_append.mp hr with hra | hrb
      · exact ((perName_facts df1 df2 d a hp).2 r hra).2.2
      · exact ih b hf r hrb
  · intro hwf1 hwf2 r hr
    rcases List.mem_flatMap.mp hr with ⟨r1, hr1, hrr⟩
    rcases List.mem_map.mp hrr with ⟨r2, hr2m, rfl⟩
    exact mergeRow_keys df1.cols df2.cols r1 r2 (hwf1 r1 hr1)
      (hwf2 r2 (List.mem_of_mem_filter hr2m))

/-- C7, witness: the fuzzy record of the two-Al example carries exactly
the three fields, and an exact-phase record of the `Bo` example carries
the full merged schema. -/
theorem c7_witness :
    (([("name", Val.str "Al"), ("rank_df1", Val.num 1), ("rank_df2", Val.num 2)]
        : Rec).map Prod.fst = ["name", "rank_df1", "rank_df2"]) ∧
    (([("Player", Val.str "Bo"), ("Rank", Val.num 3), ("Wins", Val.num 7),
        ("Rank_standings", Val.num 4)] : Rec).map Prod.fst =
      mergedCols ["Player", "Rank", "Wins"] ["Player", "Rank"]) :=
  ⟨(c7_fuzzy_records_schema
      ⟨["Player", "Rank"], [[Val.str "Al", Val.num 1], [Val.str "Al", Val.num 5]]⟩
      ⟨["Player", "Rank"], [[Val.str "Al", Val.num 2]]⟩).1
    [Val.str "Al"]
    [[("name", Val.str "Al"), ("rank_df1", Val.num 1), ("rank_df2", Val.num 2)]]
    rfl
    [("name", Val.str "Al"), ("rank_df1", Val.num 1), ("rank_df2", Val.num 2)]
    (List.mem_singleton_self _),
   (c7_fuzzy_records_schema
      ⟨["Player", "Rank", "Wins"], [[Val.str "Bo", Val.num 3, Val.num 7]]⟩
      ⟨["Player", "Rank"], [[Val.str "Bo", Val.num 4]]⟩).2
    (by decide) (by decide)
    [("Player", Val.str "Bo"), ("Rank", Val.num 3), ("Wins", Val.num 7),
      ("Rank_standings", Val.num 4)]
    (by decide)⟩

/-- C8, counterexample: two one-row tables that share the name `x` and
have no `Rank` column at all join without any error — the code only
touches `Rank` inside the fuzzy loop, which never runs here, so no
`MissingKeyError` is surfaced at all, let alone immediately. -/
theorem c8_counterexample :
    fuzzy_join ⟨["Player"], [[Val.str "x"]]⟩ ⟨["Player"], [[Val.str "x"]]⟩ =
      Except.ok [[("Player", Val.str "x")]] := rfl

/-- C8, amended: only a missing `Player` (name) column fails immediately,
before any row is processed; a missing `Rank` column does not by itself
raise — the join errors on it only when some ambiguous name has rows in
both tables, and otherwise completes normally. -/
theorem c8_missing_player_errors (df1 df2 : Table)
    (h : "Player" ∉ df1.cols ∨ "Player" ∉ df2.cols) :
    fuzzy_join df1 df2 = Except.error "KeyError: Player" := by
  unfold fuzzy_join fuzzy_joinWith
  rw [if_neg (by tauto)]

/-- C8, witness: the amended theorem applied to a left table whose key
column is called `Name` rather than `Player`. -/
theorem c8_witness :
    fuzzy_join ⟨["Name"], []⟩ ⟨["Player"], []⟩ =
      Except.error "KeyError: Player" :=
  c8_missing_player_errors ⟨["Name"], []⟩ ⟨["Player"], []⟩ (Or.inl (by decide))

/-- C4: a name unique in both tables and present in both yields exactly
one output record, it comes from the exact-match phase, and it is the
full merge of the two rows — every original column of both sides. -/
theorem c4_unique_name_exact_match (df1 df2 : Table) (nm : Val) (res : List Rec)
    (r1 r2 : List Val) (hok : fuzzy_join df1 df2 = Except.ok res)
    (hwf1 : df1.Wf) (hwf2 : df2.Wf)
    (hn1 : "name" ∉ df1.cols) (hn2 : "name" ∉ df2.cols)
    (h1 : df1.rows.filter (fun r => decide (getCell df1.cols "Player" r = some nm))
        = [r1])
    (h2 : df2.rows.filter (fun r => decide (getCell df2.cols "Player" r = some nm))
        = [r2]) :
    res.filter (nameMatches nm) = [mergeRow df1.cols df2.cols r1 r2] := by
  have hc1 : (playerVals df1).count nm = 1 := by rw [count_playerVals, h1]; rfl
  have hc2 : (playerVals df2).count nm = 1 := by rw [count_playerVals, h2]; rfl
  have hnotdup : nm ∉ dupNames df1 df2 := by
    rw [mem_dupNames_iff, hc1, hc2]
    omega
  have hr2rows : r2 ∈ df2.rows := by
    have : r2 ∈ df2.rows.filter
        (fun r => decide (getCell df2.cols "Player" r = some nm)) := by
      rw [h2]; exact List.mem_singleton_self r2
    exact List.mem_of_mem_filter this
  unfold fuzzy_join fuzzy_joinWith at hok
  by_cases hcond : "Player" ∈ df1.cols ∧ "Player" ∈ df2.cols
  · rw [if_pos hcond] at hok
    cases hfz : fuzzyResultsWith df1 df2 (dupNames df1 df2) with
    | error e => rw [hfz] at hok; cases hok
    | ok fz =>
      rw [hfz] at hok
      cases hok
      rw [List.filter_append,
        fuzzy_filter_nil_of_not_mem df1 df2 nm (dupNames df1 df2) fz hfz hnotdup,
        List.append_nil, List.filter_filter]
      unfold standardJoin
      rw [List.filter_flatMap]
      refine flatMap_singleton_filter
        (fun r => decide (getCell df1.cols "Player" r = some nm)) _ _
        df1.rows r1 h1 ?_
      intro a ha
      constructor
      · intro hpa
        have har1 : a = r1 := by
          have hmem : a ∈ df1.rows.filter
              (fun r => decide (getCell df1.cols "Player" r = some nm)) :=
            List.mem_filter.mpr ⟨ha, hpa⟩
          rw [h1] at hmem
          exact List.mem_singleton.mp hmem
        subst har1
        have hcell : getCell df1.cols "Player" a = some nm := of_decide_eq_true hpa
        have hmatch : (df2.rows.filter fun rb =>
            decide (getCell df2.cols "Player" rb = getCell df1.cols "Player" a))
              = [r2] := by
          rw [hcell]
          exact h2
        rw [hmatch, List.map_singleton]
        have hcomb : (nameMatches nm (mergeRow df1.cols df2.cols a r2) &&
            !isInDups (dupNames df1 df2) (mergeRow df1.cols df2.cols a r2)) = true := by
          rw [nameMatches_mergeRow df1 df2 nm a r2 hn1 hn2 (hwf1 a ha)
            (hwf2 r2 hr2rows) hcond.1,
            isInDups_mergeRow (dupNames df1 df2) df1 df2 a r2 hcond.1 (hwf1 a ha),
            hcell]
          simp [hnotdup]
        apply List.filter_eq_self.mpr
        intro x hx
        rw [List.mem_singleton.mp hx]
        exact hcomb
      · intro hpa
        apply List.filter_eq_nil_iff.mpr
        intro rec hrec
        rcases List.mem_map.mp hrec with ⟨rb, hrbm, rfl⟩
        have hrb : rb ∈ df2.rows := List.mem_of_mem_filter hrbm
        have hpa2 : decide (getCell df1.cols "Player" a = some nm) = false := hpa
        rw [nameMatches_mergeRow df1 df2 nm a rb hn1 hn2 (hwf1 a ha)
          (hwf2 rb hrb) hcond.1, hpa2]
        simp
  · rw [if_neg hcond] at hok
    cases hok

/-- C4, witness: the unique name `Bo` (with an extra `Wins` column on the
left) yields the one fully merged record. -/
theorem c4_witness :
    ([[("Player", Val.str "Bo"), ("Rank", Val.num 3), ("Wins", Val.num 7),
        ("Rank_standings", Val.num 4)]] : List Rec).filter
          (nameMatches (Val.str "Bo")) =
      [mergeRow ["Player", "Rank", "Wins"] ["Player", "Rank"]
        [Val.str "Bo", Val.num 3, Val.num 7] [Val.str "Bo", Val.num 4]] :=
  c4_unique_name_exact_match
    ⟨["Player", "Rank", "Wins"], [[Val.str "Bo", Val.num 3, Val.num 7]]⟩
    ⟨["Player", "Rank"], [[Val.str "Bo", Val.num 4]]⟩
    (Val.str "Bo")
    [[("Player", Val.str "Bo"), ("Rank", Val.num 3), ("Wins", Val.num 7),
      ("Rank_standings", Val.num 4)]]
    [Val.str "Bo", Val.num 3, Val.num 7] [Val.str "Bo", Val.num 4]
    rfl (by decide) (by decide) (by decide) (by decide) (by decide) (by decide)

/-- The fuzzy phase is invariant, as a multiset of records, under the
iteration order of the duplicate-name set. -/
theorem fuzzyResultsWith_perm (df1 df2 : Table) {o1 o2 : List Val}
    (hp : o1.Perm o2) :
    ∀ {fz1 : List Rec}, fuzzyResultsWith df1 df2 o1 = Except.ok fz1 →
      ∃ fz2, fuzzyResultsWith df1 df2 o2 = Except.ok fz2 ∧ fz1.Perm fz2 := by
  induction hp with
  | nil =>
    intro fz1 h
    exact ⟨fz1, h, List.Perm.refl fz1⟩
  | cons x h ih =>
    intro fz1 hok
    obtain ⟨a, b, hpn, hf, rfl⟩ := fuzzyResultsWith_cons_ok df1 df2 x _ _ hok
    obtain ⟨b2, hf2, hbp⟩ := ih hf
    exact ⟨a ++ b2, fuzzyResultsWith_cons_of df1 df2 x _ a b2 hpn hf2,
      List.Perm.append_left a hbp⟩
  | swap x y l =>
    intro fz1 hok
    obtain ⟨a, rest1, hpy, hrest1, rfl⟩ := fuzzyResultsWith_cons_ok df1 df2 y _ _ hok
    obtain ⟨b, c, hpx, hc, rfl⟩ := fuzzyResultsWith_cons_ok df1 df2 x _ _ hrest1
    refine ⟨b ++ (a ++ c), ?_, ?_⟩
    · exact fuzzyResultsWith_cons_of df1 df2 x _ b (a ++ c) hpx
        (fuzzyResultsWith_cons_of df1 df2 y _ a c hpy hc)
    · rw [← List.append_assoc a b c, ← List.append_assoc b a c]
      exact List.Perm.append_right c List.perm_append_comm
  | trans _ _ ih1 ih2 =>
    intro fz1 hok
    obtain ⟨fz2, hok2, hp12⟩ := ih1 hok
    obtain ⟨fz3, hok3, hp23⟩ := ih2 hok2
    exact ⟨fz3, hok3, hp12.trans hp23⟩

/-- C9: the join is deterministic up to output order.  Python's `set`
fixes no iteration order for the duplicate-name set across runs, and the
per-name tie-break (row-major first minimum) is fixed; for any two
orderings of the same duplicate-name set, a successful run yields the
same records up to permutation — the same set of matched pairs, possibly
in a different overall sequence order. -/
theorem c9_join_deterministic_up_to_order (df1 df2 : Table) (o1 o2 : List Val)
    (res1 : List Rec) (hperm : o1.Perm o2)
    (hok : fuzzy_joinWith df1 df2 o1 = Except.ok res1) :
    ∃ res2, fuzzy_joinWith df1 df2 o2 = Except.ok res2 ∧ res1.Perm res2 := by
  unfold fuzzy_joinWith at hok ⊢
  by_cases hcond : "Player" ∈ df1.cols ∧ "Player" ∈ df2.cols
  · rw [if_pos hcond] at hok ⊢
    cases hfz : fuzzyResultsWith df1 df2 o1 with
    | error e => rw [hfz] at hok; cases hok
    | ok fz1 =>
      rw [hfz] at hok
      cases hok
      obtain ⟨fz2, hfz2, hfp⟩ := fuzzyResultsWith_perm df1 df2 hperm hfz
      rw [hfz2]
      refine ⟨_, rfl, ?_⟩
      have hfilter : ((standardJoin df1 df2).filter fun r => !isInDups o1 r)
          = (standardJoin df1 df2).filter fun r => !isInDups o2 r := by
        apply List.filter_congr
        intro r _
        unfold isInDups
        cases List.lookup "Player" r with
        | none => rfl
        | some v =>
          have hdec : decide (v ∈ o1) = decide (v ∈ o2) :=
            decide_eq_decide.mpr hperm.mem_iff
          show (!decide (v ∈ o1)) = !decide (v ∈ o2)
          rw [hdec]
      rw [hfilter]
      exact List.Perm.append_left _ hfp
  · rw [if_neg hcond] at hok
    cases hok

/-- C9, witness: two orderings of the duplicate-name set `{Al, Bo}` give
the same two fuzzy records up to order. -/
theorem c9_witness :
    ∃ res2, fuzzy_joinWith
        ⟨["Player", "Rank"], [[Val.str "Al", Val.num 1], [Val.str "Al", Val.num 5],
          [Val.str "Bo", Val.num 10], [Val.str "Bo", Val.num 11]]⟩
        ⟨["Player", "Rank"], [[Val.str "Al", Val.num 2], [Val.str "Bo", Val.num 12]]⟩
        [Val.str "Bo", Val.str "Al"] = Except.ok res2 ∧
      ([[("name", Val.str "Al"), ("rank_df1", Val.num 1), ("rank_df2", Val.num 2)],
        [("name", Val.str "Bo"), ("rank_df1", Val.num 11), ("rank_df2", Val.num 12)]]
          : List Rec).Perm res2 :=
  c9_join_deterministic_up_to_order
    ⟨["Player", "Rank"], [[Val.str "Al", Val.num 1], [Val.str "Al", Val.num 5],
      [Val.str "Bo", Val.num 10], [Val.str "Bo", Val.num 11]]⟩
    ⟨["Player", "Rank"], [[Val.str "Al", Val.num 2], [Val.str "Bo", Val.num 12]]⟩
    [Val.str "Al", Val.str "Bo"] [Val.str "Bo", Val.str "Al"]
    [[("name", Val.str "Al"), ("rank_df1", Val.num 1), ("rank_df2", Val.num 2)],
     [("name", Val.str "Bo"), ("rank_df1", Val.num 11), ("rank_df2", Val.num 12)]]
    (by decide) rfl

/-- C10: when no name repeats within either table, the whole join is the
plain inner join on the name key — the duplicate-name set is empty, the
fuzzy phase contributes nothing, and the exact phase's filter drops no
row. -/
theorem c10_no_duplicates_plain_inner_join (df1 df2 : Table)
    (hp1 : "Player" ∈ df1.cols) (hp2 : "Player" ∈ df2.cols)
    (hu1 : (playerVals df1).Nodup) (hu2 : (playerVals df2).Nodup) :
    fuzzy_join df1 df2 = Except.ok (plainInnerJoin df1 df2) := by
  have hd1 : dupsOf df1 = [] := by
    unfold dupsOf
    apply List.filter_eq_nil_iff.mpr
    intro v _
    simp only [decide_eq_true_iff, not_lt]
    exact List.nodup_iff_count_le_one.mp hu1 v
  have hd2 : dupsOf df2 = [] := by
    unfold dupsOf
    apply List.filter_eq_nil_iff.mpr
    intro v _
    simp only [decide_eq_true_iff, not_lt]
    exact List.nodup_iff_count_le_one.mp hu2 v
  have hdups : dupNames df1 df2 = [] := by
    unfold dupNames
    rw [hd1, hd2]
    rfl
  unfold fuzzy_join
  rw [hdups]
  unfold fuzzy_joinWith
  rw [if_pos ⟨hp1, hp2⟩]
  show Except.ok (((standardJoin df1 df2).filter fun r => !isInDups [] r) ++ [])
      = Except.ok (plainInnerJoin df1 df2)
  rw [List.append_nil]
  have hfilter : ((standardJoin df1 df2).filter fun r => !isInDups [] r)
      = standardJoin df1 df2 := by
    apply List.filter_eq_self.mpr
    intro r _
    unfold isInDups
    cases List.lookup "Player" r with
    | none => rfl
    | some v => simp
  rw [hfilter]
  rfl

/-- C10, witness: the duplicate-free `Bo` tables join to exactly their
plain inner join. -/
theorem c10_witness :
    fuzzy_join ⟨["Player", "Rank", "Wins"], [[Val.str "Bo", Val.num 3, Val.num 7]]⟩
        ⟨["Player", "Rank"], [[Val.str "Bo", Val.num 4]]⟩ =
      Except.ok (plainInnerJoin
        ⟨["Player", "Rank", "Wins"], [[Val.str "Bo", Val.num 3, Val.num 7]]⟩
        ⟨["Player", "Rank"], [[Val.str "Bo", Val.num 4]]⟩) :=
  c10_no_duplicates_plain_inner_join
    ⟨["Player", "Rank", "Wins"], [[Val.str "Bo", Val.num 3, Val.num 7]]⟩
    ⟨["Player", "Rank"], [[Val.str "Bo", Val.num 4]]⟩
    (by decide) (by decide) (by decide) (by decide)

end UrzaHelpers
